import Mathlib
set_option maxRecDepth 100000
set_option maxHeartbeats 4000000

/- A verification development for the Reed-Solomon error-correction codec over GF(2^8).

   The codec (classes `GF_256` and `RS` of the `ecc` package) is exercised by the
   repository notebook `reed_solomon.ipynb`.  The `ecc` package itself is not part of
   the repository snapshot, so the definitions below are modelled from the design
   specification (field arithmetic, polynomial algebra, systematic encoder, and the
   syndrome / locator / root-search / magnitude / re-verification decoding pipeline),
   with every free parameter (irreducible polynomial x^8+x^4+x^3+x+1, field generator
   alpha = 3, generator-polynomial roots alpha^1..alpha^32, the extra length symbol
   that makes up the notebook's "n - k + 1" redundancy, quotient padding of
   `gf_256_pol_divide`) fixed by reproducing, byte for byte, the printed outputs of
   notebook cells 8 and 10.  `RS.encode`/`RS.decode` are the per-block Encoder and
   Decoder components; `RS.encodeMessage`/`RS.decodeMessage` add the Block Framer's
   splitting and reassembly (at most 222 data symbols per block, so a block with its
   length symbol and 32 parity symbols never exceeds n = 255), fixed by cells 12-17:
   the 223-symbol Lorem-ipsum message encodes to two blocks of 289 symbols = 2312
   bits in total, and its burst-corrupted transmission decodes back exactly.  All
   reproductions are proved below as the `notebook_*` theorems. -/

namespace RSCodec

/-- Multiplication by x in GF(2^8), reducing by the irreducible polynomial
x^8+x^4+x^3+x+1 (0x11B = 283) when the degree overflows. -/
def xtime (b : Nat) : Nat := if b < 128 then 2 * b else (2 * b) ^^^ 283

/-- Carry-less ("Russian peasant") product of two field elements, reduced modulo
0x11B at each step; structural fuel makes kernel reduction possible.  This is the
mathematical definition of GF(2^8) multiplication, used to justify the lookup-table
multiplication below. -/
def pmulAux : Nat → Nat → Nat → Nat
  | 0, _, _ => 0
  | fuel+1, a, b =>
      if b = 0 then 0 else (if b % 2 = 1 then a else 0) ^^^ pmulAux fuel (xtime a) (b / 2)

/-- Product of two field elements from the carry-less definition. -/
def pmul (a b : Nat) : Nat := pmulAux b a b

/-- Antilog table: `expTable[i] = alpha^i` with alpha = 3, the field generator used by
the codec (fixed by matching the notebook's polynomial-arithmetic outputs). -/
def expTable : List Nat := [1, 3, 5, 15, 17, 51, 85, 255, 26, 46, 114, 150, 161, 248, 19, 53, 95, 225, 56, 72, 216, 115, 149, 164, 247, 2, 6, 10, 30, 34, 102, 170, 229, 52, 92, 228, 55, 89, 235, 38, 106, 190, 217, 112, 144, 171, 230, 49, 83, 245, 4, 12, 20, 60, 68, 204, 79, 209, 104, 184, 211, 110, 178, 205, 76, 212, 103, 169, 224, 59, 77, 215, 98, 166, 241, 8, 24, 40, 120, 136, 131, 158, 185, 208, 107, 189, 220, 127, 129, 152, 179, 206, 73, 219, 118, 154, 181, 196, 87, 249, 16, 48, 80, 240, 11, 29, 39, 105, 187, 214, 97, 163, 254, 25, 43, 125, 135, 146, 173, 236, 47, 113, 147, 174, 233, 32, 96, 160, 251, 22, 58, 78, 210, 109, 183, 194, 93, 231, 50, 86, 250, 21, 63, 65, 195, 94, 226, 61, 71, 201, 64, 192, 91, 237, 44, 116, 156, 191, 218, 117, 159, 186, 213, 100, 172, 239, 42, 126, 130, 157, 188, 223, 122, 142, 137, 128, 155, 182, 193, 88, 232, 35, 101, 175, 234, 37, 111, 177, 200, 67, 197, 84, 252, 31, 33, 99, 165, 244, 7, 9, 27, 45, 119, 153, 176, 203, 70, 202, 69, 207, 74, 222, 121, 139, 134, 145, 168, 227, 62, 66, 198, 81, 243, 14, 18, 54, 90, 238, 41, 123, 141, 140, 143, 138, 133, 148, 167, 242, 13, 23, 57, 75, 221, 124, 132, 151, 162, 253, 28, 36, 108, 180, 199, 82, 246]

/-- Log table, the inverse of `expTable` on 1..255; index 0 is never consulted because
multiplication and division treat the zero element as a special case. -/
def logTable : List Nat := [0, 0, 25, 1, 50, 2, 26, 198, 75, 199, 27, 104, 51, 238, 223, 3, 100, 4, 224, 14, 52, 141, 129, 239, 76, 113, 8, 200, 248, 105, 28, 193, 125, 194, 29, 181, 249, 185, 39, 106, 77, 228, 166, 114, 154, 201, 9, 120, 101, 47, 138, 5, 33, 15, 225, 36, 18, 240, 130, 69, 53, 147, 218, 142, 150, 143, 219, 189, 54, 208, 206, 148, 19, 92, 210, 241, 64, 70, 131, 56, 102, 221, 253, 48, 191, 6, 139, 98, 179, 37, 226, 152, 34, 136, 145, 16, 126, 110, 72, 195, 163, 182, 30, 66, 58, 107, 40, 84, 250, 133, 61, 186, 43, 121, 10, 21, 155, 159, 94, 202, 78, 212, 172, 229, 243, 115, 167, 87, 175, 88, 168, 80, 244, 234, 214, 116, 79, 174, 233, 213, 231, 230, 173, 232, 44, 215, 117, 122, 235, 22, 11, 245, 89, 203, 95, 176, 156, 169, 81, 160, 127, 12, 246, 111, 23, 196, 73, 236, 216, 67, 31, 45, 164, 118, 123, 183, 204, 187, 62, 90, 251, 96, 177, 134, 59, 82, 161, 108, 170, 85, 41, 157, 151, 178, 135, 144, 97, 190, 220, 252, 188, 149, 207, 205, 55, 63, 91, 209, 83, 57, 132, 60, 65, 162, 109, 71, 20, 42, 158, 93, 86, 242, 211, 171, 68, 17, 146, 217, 35, 32, 46, 137, 180, 124, 184, 38, 119, 153, 227, 165, 103, 74, 237, 222, 197, 49, 254, 24, 13, 99, 140, 128, 192, 247, 112, 7]

/-- The antilog table packed into one numeral, 8 bits per entry (little-endian), so
that table lookups reduce fast in the kernel; `exp_eq_table` below proves it agrees
with `expTable`. -/
def expNum : Nat := 121466575815500734415996836054882879791832871126464106601702187317037704638720699736399773789881350966450612456712855012027411276600174289287471020404625812305602624065235109912861702064162581238381248958448422203687095403783548669481020115429473714815130546491650907227391014769411226625179674495964331439187933946584331397333639979447433688574122779091165484305754955373075414835846686739481168846087332879005575464100018941681806164995707250399423063311368515928344698269234575261926727907427524598329539937222090466892085999338983806607642276495436692919915470849325341672618663070658392065151738926641076044545

/-- The log table packed into one numeral, 8 bits per entry (little-endian);
`glog_eq_table` below proves it agrees with `logTable`. -/
def logNum : Nat := 939374623831894136699086600277250597547650664638770418422125146541797353646788332867483593573384618611044815625336497665827114626705134492515730415652478061620339993830966980270842846318821775850471098591710629241171812800746666233448222972174585295916389942636813666312872914849454985560152530477328703759683306625234997237483834721220409437442253146756845415190424543171129629468776480674528486868811725071010351012234056630775688111116293610821126543142160426617079940511630006820862697466582575257349116925728488930366609138264019883664906661504235885380294353134295748489096855100647154935187045898006656778240

/-- Table lookup `alpha^i` for `i < 255`. -/
def exp (i : Nat) : Nat := (expNum >>> (8 * i)) &&& 255

/-- Table lookup `log a` for `0 < a < 256`. -/
def glog (a : Nat) : Nat := (logNum >>> (8 * a)) &&& 255

/-- Field addition: bitwise XOR (characteristic 2). -/
def add (a b : Nat) : Nat := a ^^^ b

/-- Field subtraction coincides with addition in characteristic 2. -/
def subtract (a b : Nat) : Nat := a ^^^ b

/-- Field multiplication through the log/antilog tables, with the zero element
special-cased (its log is undefined). -/
def multiply (a b : Nat) : Nat :=
  if a = 0 ∨ b = 0 then 0 else exp ((glog a + glog b) % 255)

/-- Total field division used inside the polynomial algorithms; division of the zero
element yields the zero element, callers ensure the divisor is nonzero. -/
def fdiv (a b : Nat) : Nat :=
  if a = 0 then 0 else exp ((glog a + (255 - glog b)) % 255)

/-- Field division as specified: fails with DivisionByZero (modelled as `none`) when
the divisor is the zero element. -/
def divide (a b : Nat) : Option Nat :=
  if b = 0 then none else some (fdiv a b)

/-- Field inverse as specified: fails on the zero element, otherwise
`antilog[(255 - log a) mod 255]`. -/
def inverse (a : Nat) : Option Nat :=
  if a = 0 then none else some (exp ((255 - glog a) % 255))

/-- Left-pad a coefficient list (index 0 = highest degree) with zeros to length `n`. -/
def padTo (n : Nat) (p : List Nat) : List Nat := List.replicate (n - p.length) 0 ++ p

/-- Polynomial addition: element-wise field addition (XOR) after left-padding the
shorter operand; the result length is the larger operand length. -/
def gf_256_pol_sum (a b : List Nat) : List Nat :=
  List.zipWith Nat.xor (padTo (max a.length b.length) a) (padTo (max a.length b.length) b)

/-- Polynomial subtraction is identical to addition in characteristic 2. -/
def gf_256_pol_subtract (a b : List Nat) : List Nat := gf_256_pol_sum a b

/-- Polynomial multiplication (convolution), peeling the leading coefficient of the
first operand; every partial product is accumulated by field addition. -/
def gf_256_pol_multiply : List Nat → List Nat → List Nat
  | [], _ => []
  | c :: u, v =>
      gf_256_pol_sum (v.map (multiply c) ++ List.replicate u.length 0)
        (gf_256_pol_multiply u v)

/-- Polynomial long division, fuel-structured so that kernel reduction works; the
fuel bounds the number of eliminated leading coefficients.  Returns the pair
(quotient, remainder). -/
def polyDivModAux : Nat → List Nat → List Nat → List Nat × List Nat
  | 0, a, _ => ([], a)
  | fuel+1, a, b =>
      if a.length < b.length then ([], a)
      else
        let c := fdiv (a.headD 0) (b.headD 0)
        let sub := List.zipWith Nat.xor a (b.map (multiply c) ++ List.replicate (a.length - b.length) 0)
        let r := polyDivModAux fuel sub.tail b
        (c :: r.1, r.2)

/-- Polynomial long division producing (quotient, remainder). -/
def polyDivMod (a b : List Nat) : List Nat × List Nat := polyDivModAux a.length a b

/-- The codec's `gf_256_pol_divide`: fails with DivisionByZero (modelled as `none`)
when the divisor is empty or its leading coefficient is 0; otherwise returns the
quotient left-padded with zeros to the dividend's length — a single coefficient list,
exactly what notebook cell 8 prints. -/
def gf_256_pol_divide (a b : List Nat) : Option (List Nat) :=
  if b.headD 0 = 0 then none
  else some (padTo a.length (polyDivMod a b).1)

/-- Remainder-only division variant, left-padded to the divisor's degree. -/
def poly_mod (a b : List Nat) : Option (List Nat) :=
  if b.headD 0 = 0 then none else some (padTo (b.length - 1) (polyDivMod a b).2)

/-- Polynomial evaluation by Horner's method (index 0 = highest degree). -/
def poly_eval (p : List Nat) (x : Nat) : Nat :=
  p.foldl (fun acc c => add (multiply acc x) c) 0

/-- Product of the linear factors (x - alpha^i) for i = 1..m: the generator
polynomial construction. -/
def genBuild : Nat → List Nat
  | 0 => [1]
  | m+1 => gf_256_pol_multiply (genBuild m) [1, exp (m+1)]

/-- The codec's degree-32 generator polynomial (roots alpha^1..alpha^32) as a literal
table; `genTable_build` below proves it equals `genBuild 32`. -/
def genTable : List Nat := [1, 150, 26, 214, 33, 246, 142, 150, 8, 62, 71, 201, 144, 1, 231, 11, 112, 231, 153, 249, 155, 184, 206, 33, 107, 60, 28, 105, 131, 30, 145, 180, 56]

namespace RS

/-- Data-length parameter of the notebook's `RS(223)` instance. -/
def k : Nat := 223

/-- Parity symbols of an augmented (data plus length symbol) block: the remainder of
the block shifted by x^32, divided by the generator, left-padded to 32 symbols. -/
def parity (base : List Nat) : List Nat :=
  padTo 32 (polyDivMod (base ++ List.replicate 32 0) genTable).2

/-- Systematic encoder: the data symbols, then one length symbol `len(data) mod 256`,
then 32 parity symbols — the notebook's `n - k + 1 = 33` redundancy symbols. -/
def encode (data : List Nat) : List Nat :=
  let base := data ++ [data.length % 256]
  base ++ parity base

/-- Syndromes of a received word: the word evaluated at the generator's roots
alpha^1 .. alpha^32. -/
def syndromes (r : List Nat) : List Nat :=
  (List.range 32).map (fun i => poly_eval r (exp (i + 1)))

/-- Evaluation of a low-order-first coefficient list (decoder-internal convention for
locator and evaluator polynomials). -/
def evalLow (p : List Nat) (x : Nat) : Nat :=
  p.foldr (fun c acc => add (multiply acc x) c) 0

/-- XOR of two low-order-first coefficient lists, right-padding the shorter one. -/
def xorLow (u v : List Nat) : List Nat :=
  List.zipWith Nat.xor (u ++ List.replicate (v.length - u.length) 0)
    (v ++ List.replicate (u.length - v.length) 0)

/-- One Berlekamp-Massey update.  The state is (locator C, previous locator B,
locator degree L, shift m, previous discrepancy b); `S` is the low-order-first
syndrome list and `n` the current iteration. -/
def bmStep (S : List Nat) (st : List Nat × List Nat × Nat × Nat × Nat) (n : Nat) :
    List Nat × List Nat × Nat × Nat × Nat :=
  let C := st.1
  let B := st.2.1
  let L := st.2.2.1
  let m := st.2.2.2.1
  let b := st.2.2.2.2
  let d := (List.range L).foldl
    (fun acc i => acc ^^^ multiply (C.getD (i+1) 0) (S.getD (n - (i+1)) 0)) (S.getD n 0)
  if d = 0 then (C, B, L, m+1, b)
  else
    let C2 := xorLow C ((List.replicate m 0 ++ B).map (multiply (fdiv d b)))
    if 2 * L ≤ n then (C2, C, n + 1 - L, 1, d)
    else (C2, B, L, m+1, b)

/-- Berlekamp-Massey: derive the minimal error-locator polynomial (low-order-first)
for a syndrome sequence, together with its degree. -/
def bm (S : List Nat) : List Nat × Nat :=
  let st := (List.range S.length).foldl (bmStep S) ([1], [1], 0, 1, 1)
  (st.1, st.2.2.1)

/-- Chien search: the degrees D in 0..254 whose position root alpha^(-D) annihilates
the locator. -/
def chien (C : List Nat) : List Nat :=
  (List.range 255).filter (fun D => evalLow C (exp ((255 - D) % 255)) == 0)

/-- Error-evaluator polynomial Omega = S(x) * C(x) mod x^32 (low-order-first). -/
def omegaPoly (S C : List Nat) : List Nat :=
  (List.range 32).map (fun n =>
    (List.range (n+1)).foldl (fun acc i => acc ^^^ multiply (S.getD i 0) (C.getD (n - i) 0)) 0)

/-- Iterated field power (used for the locator's formal derivative). -/
def powx (x n : Nat) : Nat := (List.range n).foldl (fun acc _ => multiply acc x) 1

/-- Formal derivative of the locator evaluated at `x`: odd-degree terms only, since
the field has characteristic 2. -/
def derivEval (C : List Nat) (x : Nat) : Nat :=
  (List.range C.length).foldl
    (fun acc j => if j % 2 = 1 then acc ^^^ multiply (C.getD j 0) (powx x (j - 1)) else acc) 0

/-- Forney stage: apply the error magnitude Omega(X⁻¹)/C'(X⁻¹) at each located
degree; fails on a zero derivative or an out-of-range position (internal
inconsistency — uncorrectable). -/
def applyErrors (r : List Nat) (S C : List Nat) (Ds : List Nat) : Option (List Nat) :=
  let Om := omegaPoly S C
  Ds.foldl
    (fun acc D => acc.bind (fun w =>
      let Xinv := exp ((255 - D) % 255)
      let den := derivEval C Xinv
      if den = 0 then none
      else if w.length ≤ D then none
      else
        let p := w.length - 1 - D
        some (w.set p (w.getD p 0 ^^^ fdiv (evalLow Om Xinv) den))))
    (some r)

/-- Sequential decoding pipeline: syndromes; zero-syndrome fast path returning the
received word minus its 33 redundancy symbols; otherwise Berlekamp-Massey with the
degree cap t = 16, Chien search with the root-count consistency check, Forney
magnitudes, correction, and mandatory syndrome re-verification. -/
def decode (received : List Nat) : Option (List Nat) :=
  let S := syndromes received
  if S.all (fun s => s == 0) then some (received.take (received.length - 33))
  else
    let CL := bm S
    if 16 < CL.2 then none
    else
      let Ds := chien CL.1
      if Ds.length ≠ CL.2 then none
      else
        match applyErrors received S CL.1 Ds with
        | none => none
        | some w =>
            if (syndromes w).all (fun s => s == 0) then some (w.take (w.length - 33))
            else none

/-- Message-level encoder with the Block Framer's splitting, fuel-structured on the
data length.  Modelled from the spec (Block Framer of sections 2 and 4.5; n = 255 of
section 6) and fixed by notebook cells 12-14: the 223-symbol message encodes to
2305-2328 bits, i.e. two blocks and 289 symbols in total with no padding, so
splitting already occurs at 223 symbols and every block keeps its own 33 redundancy
symbols.  Each block therefore carries at most k - 1 = 222 data symbols — the unique
maximal fill once the length symbol is counted, giving full codewords of exactly
n = 255 symbols. -/
def encodeMessageAux : Nat → List Nat → List Nat
  | 0, data => RS.encode data
  | fuel+1, data =>
      if data.length ≤ 222 then RS.encode data
      else RS.encode (data.take 222) ++ encodeMessageAux fuel (data.drop 222)

/-- The program's `rs.encode`: split the message into blocks of at most 222 data
symbols and concatenate the per-block codewords. -/
def encodeMessage (data : List Nat) : List Nat := encodeMessageAux data.length data

/-- Message-level decoder with the Block Framer's reassembly, fuel-structured:
all blocks but the last are exactly 255 symbols, mirroring the encoder's maximal
fill; each block is decoded by the section-4.4 pipeline and the data parts are
concatenated (any failing block fails the whole message). -/
def decodeMessageAux : Nat → List Nat → Option (List Nat)
  | 0, r => RS.decode r
  | fuel+1, r =>
      if r.length ≤ 255 then RS.decode r
      else (RS.decode (r.take 255)).bind fun d1 =>
        (decodeMessageAux fuel (r.drop 255)).map fun d2 => d1 ++ d2

/-- The program's `rs.decode`: decode 255-symbol blocks and reassemble. -/
def decodeMessage (r : List Nat) : Option (List Nat) := decodeMessageAux r.length r

end RS

/-- Byte sequence of the notebook's message (cell 10). -/
def msgBytes : List Nat := [195, 161, 195, 169, 195, 173, 195, 179, 195, 186]

/-- The notebook's printed "Sent bytes" (cell 10): `rs.encode` applied to `msgBytes`. -/
def sentBytes : List Nat := [195, 161, 195, 169, 195, 173, 195, 179, 195, 186, 10, 178, 129, 209, 206, 42, 255, 44, 203, 26, 165, 213, 11, 234, 24, 250, 210, 154, 159, 100, 106, 21, 144, 233, 155, 126, 41, 112, 129, 17, 107, 130, 195]

/-- The notebook's printed "Received bytes" (cell 10): `sentBytes` with the symbols at
positions 0, 2, 8 and 9 corrupted by the demonstrated bit flips. -/
def receivedBytes : List Nat := [218, 161, 194, 169, 195, 173, 195, 179, 194, 189, 10, 178, 129, 209, 206, 42, 255, 44, 203, 26, 165, 213, 11, 234, 24, 250, 210, 154, 159, 100, 106, 21, 144, 233, 155, 126, 41, 112, 129, 17, 107, 130, 195]

/-- Byte sequence of the notebook's 223-character Lorem-ipsum message
(cells 12-17). -/
def loremBytes : List Nat := [76, 111, 114, 101, 109, 32, 105, 112, 115, 117, 109, 32, 100, 111, 108, 111, 114, 32, 115, 105, 116, 32, 97, 109, 101, 116, 44, 32, 99, 111, 110, 115, 101, 99, 116, 101, 116, 117, 114, 32, 97, 100, 105, 112, 105, 115, 99, 105, 110, 103, 32, 101, 108, 105, 116, 44, 32, 115, 101, 100, 32, 100, 111, 32, 101, 105, 117, 115, 109, 111, 100, 32, 116, 101, 109, 112, 111, 114, 32, 105, 110, 99, 105, 100, 105, 100, 117, 110, 116, 32, 117, 116, 32, 108, 97, 98, 111, 114, 101, 32, 101, 116, 32, 100, 111, 108, 111, 114, 101, 32, 109, 97, 103, 110, 97, 32, 97, 108, 105, 113, 117, 97, 46, 32, 84, 101, 109, 112, 117, 115, 32, 105, 97, 99, 117, 108, 105, 115, 32, 117, 114, 110, 97, 32, 105, 100, 32, 118, 111, 108, 117, 116, 112, 97, 116, 46, 32, 76, 97, 99, 117, 115, 32, 115, 117, 115, 112, 101, 110, 100, 105, 115, 115, 101, 32, 102, 97, 117, 99, 105, 98, 117, 115, 32, 105, 110, 116, 101, 114, 100, 117, 109, 32, 112, 111, 115, 117, 101, 114, 101, 32, 108, 111, 114, 101, 109, 32, 105, 112, 115, 117, 109, 32, 100, 111, 108, 111, 114, 32, 115, 105, 116, 46]

/-- Flip every bit of the bytes at the given positions (each 24-bit burst of
notebook cell 14 covers exactly three whole bytes, so negating a burst is XOR-ing
three bytes with 255). -/
def flipBytes (positions : List Nat) (w : List Nat) : List Nat :=
  positions.foldl (fun w p => w.set p (w.getD p 0 ^^^ 255)) w

/-- The byte positions corrupted by notebook cell 14's five 24-bit bursts
(bits 0-23, 192-215, 432-455, 552-575, 2280-2303). -/
def cell17Positions : List Nat := [0, 1, 2, 24, 25, 26, 54, 55, 56, 69, 70, 71, 285, 286, 287]

/-- The corrupted transmission of notebook cell 17: the encoded Lorem-ipsum message
with the fifteen burst-corrupted bytes (twelve in the first block, three in the
second). -/
def cell17Received : List Nat := flipBytes cell17Positions (RS.encodeMessage loremBytes)

/-- Antilog-table build: repeated multiplication by the generator alpha = 3
(3·v = xtime v XOR v). -/
def expAux : Nat → Nat → List Nat
  | 0, _ => []
  | n+1, v => v :: expAux n (xtime v ^^^ v)

/-- Horner step used by `poly_eval`, named so the evaluation lemmas can refer to it. -/
def hstep (x : Nat) : Nat → Nat → Nat := fun acc c => add (multiply acc x) c

theorem xor_lt_256 {a b : Nat} (ha : a < 256) (hb : b < 256) : a ^^^ b < 256 := by
  have h8 : (256 : Nat) = 2 ^ 8 := by norm_num
  rw [h8] at ha hb ⊢
  exact Nat.xor_lt_two_pow ha hb

theorem expTable_build : expTable = expAux 255 1 := by decide

theorem exp_eq_table : ∀ i, i < 256 → exp i = expTable.getD i 0 := by decide

theorem glog_eq_table : ∀ a, a < 257 → glog a = logTable.getD a 0 := by decide

theorem exp_lt : ∀ i, i < 255 → exp i < 256 ∧ exp i ≠ 0 := by decide

theorem glog_spec : ∀ a, a < 256 → a ≠ 0 → glog a < 255 ∧ exp (glog a) = a := by decide

theorem glog_exp : ∀ i, i < 255 → glog (exp i) = i := by decide

theorem exp_step : ∀ s, s < 255 → xtime (exp s) ^^^ exp s = exp ((s + 1) % 255) := by decide

theorem exp_zero : exp 0 = 1 := by decide

theorem glog_one : glog 1 = 0 := by decide

theorem xor_left_comm (a b c : Nat) : a ^^^ (b ^^^ c) = b ^^^ (a ^^^ c) := by
  rw [← Nat.xor_assoc, Nat.xor_comm a b, Nat.xor_assoc]

theorem two_mul_xor (u v : Nat) : 2 * (u ^^^ v) = 2 * u ^^^ 2 * v := by
  have hs : ∀ x : Nat, 2 * x = x <<< 1 := by
    intro x; rw [Nat.shiftLeft_eq, pow_one, Nat.mul_comm]
  rw [hs, hs, hs]
  apply Nat.eq_of_testBit_eq
  intro i
  simp only [Nat.testBit_shiftLeft, Nat.testBit_xor]
  cases Nat.decLe 1 i with
  | isTrue h => simp [h]
  | isFalse h => simp [h]

theorem bit7_iff : ∀ w, w < 256 → Nat.testBit w 7 = decide (128 ≤ w) := by decide

theorem xtime_xor {u v : Nat} (hu : u < 256) (hv : v < 256) :
    xtime (u ^^^ v) = xtime u ^^^ xtime v := by
  have hx : u ^^^ v < 256 := xor_lt_256 hu hv
  have hbit : decide (128 ≤ u ^^^ v) = (decide (128 ≤ u)).xor (decide (128 ≤ v)) := by
    rw [← bit7_iff _ hx, ← bit7_iff _ hu, ← bit7_iff _ hv, Nat.testBit_xor]
  unfold xtime
  rcases Nat.lt_or_ge u 128 with h1 | h1 <;> rcases Nat.lt_or_ge v 128 with h2 | h2
  · have hlt : u ^^^ v < 128 := by
      by_contra hc
      have : (128 ≤ u ^^^ v) := Nat.le_of_not_lt hc
      simp [this, Nat.not_le.mpr h1, Nat.not_le.mpr h2] at hbit
    simp [hlt, h1, h2, two_mul_xor]
  · have hge : ¬ (u ^^^ v < 128) := by
      intro hc
      simp [Nat.not_le.mpr hc, Nat.not_le.mpr h1, h2] at hbit
    have h1l : u < 128 := h1
    simp only [if_neg hge, if_pos h1l, if_neg (Nat.not_lt.mpr h2), two_mul_xor]
    simp [Nat.xor_assoc, Nat.xor_comm, xor_left_comm]
  · have hge : ¬ (u ^^^ v < 128) := by
      intro hc
      simp [Nat.not_le.mpr hc, h1, Nat.not_le.mpr h2] at hbit
    simp only [if_neg hge, if_neg (Nat.not_lt.mpr h1), if_pos h2, two_mul_xor]
    simp [Nat.xor_assoc, Nat.xor_comm, xor_left_comm]
  · have hlt : u ^^^ v < 128 := by
      by_contra hc
      have hge : (128 ≤ u ^^^ v) := Nat.le_of_not_lt hc
      simp [hge, h1, h2] at hbit
    simp only [if_pos hlt, if_neg (Nat.not_lt.mpr h1), if_neg (Nat.not_lt.mpr h2), two_mul_xor]
    simp [Nat.xor_assoc, Nat.xor_comm, xor_left_comm, Nat.xor_self, Nat.xor_zero]

theorem xtime_lt : ∀ b, b < 256 → xtime b < 256 := by decide

theorem xtime_zero : xtime 0 = 0 := by decide

theorem pmulAux_irrel : ∀ f1 f2 a b : Nat, b ≤ f1 → b ≤ f2 → pmulAux f1 a b = pmulAux f2 a b := by
  intro f1
  induction f1 with
  | zero =>
    intro f2 a b hb1 _
    have hb : b = 0 := Nat.le_zero.mp hb1
    subst hb
    cases f2 <;> simp [pmulAux]
  | succ f ih =>
    intro f2 a b hb1 hb2
    cases f2 with
    | zero =>
      have hb : b = 0 := Nat.le_zero.mp hb2
      subst hb
      simp [pmulAux]
    | succ f2 =>
      by_cases hb : b = 0
      · subst hb; simp [pmulAux]
      · simp only [pmulAux, if_neg hb]
        have hlt : b / 2 < b := Nat.div_lt_self (Nat.pos_of_ne_zero hb) (by norm_num)
        congr 1
        exact ih f2 (xtime a) (b / 2) (by omega) (by omega)

theorem pmulAux_zero_left : ∀ f b : Nat, pmulAux f 0 b = 0 := by
  intro f
  induction f with
  | zero => intro b; rfl
  | succ f ih =>
    intro b
    by_cases hb : b = 0 <;> simp [pmulAux, hb, xtime_zero, ih]

theorem pmulAux_lt : ∀ f a b : Nat, a < 256 → pmulAux f a b < 256 := by
  intro f
  induction f with
  | zero => intro a b _; simp [pmulAux]
  | succ f ih =>
    intro a b ha
    by_cases hb : b = 0
    · simp [pmulAux, hb]
    · simp only [pmulAux, if_neg hb]
      refine xor_lt_256 ?_ (ih (xtime a) (b / 2) (xtime_lt a ha))
      by_cases h2 : b % 2 = 1 <;> simp [h2, ha]

theorem pmulAux_xor_left : ∀ f a1 a2 b : Nat, a1 < 256 → a2 < 256 →
    pmulAux f (a1 ^^^ a2) b = pmulAux f a1 b ^^^ pmulAux f a2 b := by
  intro f
  induction f with
  | zero => intro a1 a2 b _ _; simp [pmulAux]
  | succ f ih =>
    intro a1 a2 b h1 h2
    by_cases hb : b = 0
    · simp [pmulAux, hb]
    · simp only [pmulAux, if_neg hb]
      rw [xtime_xor h1 h2, ih (xtime a1) (xtime a2) (b / 2) (xtime_lt _ h1) (xtime_lt _ h2)]
      by_cases hm : b % 2 = 1 <;>
        simp [hm, Nat.xor_assoc, Nat.xor_comm, xor_left_comm]

theorem pmulAux_xtime : ∀ f z b : Nat, z < 256 → pmulAux f (xtime z) b = xtime (pmulAux f z b) := by
  intro f
  induction f with
  | zero => intro z b _; simp [pmulAux, xtime_zero]
  | succ f ih =>
    intro z b hz
    by_cases hb : b = 0
    · simp [pmulAux, hb, xtime_zero]
    · simp only [pmulAux, if_neg hb]
      rw [ih (xtime z) (b / 2) (xtime_lt _ hz)]
      rw [xtime_xor (show (if b % 2 = 1 then z else 0) < 256 by
            by_cases hm : b % 2 = 1 <;> simp [hm, hz])
          (pmulAux_lt f (xtime z) (b / 2) (xtime_lt _ hz))]
      by_cases hm : b % 2 = 1 <;> simp [hm, xtime_zero]

theorem pmul_exp_zero : ∀ b, b < 256 → pmul (exp 0) b = multiply (exp 0) b := by decide

theorem pmul_exp : ∀ i, i < 255 → ∀ b, b < 256 → pmul (exp i) b = multiply (exp i) b := by
  intro i
  induction i with
  | zero => intro _ b hb; exact pmul_exp_zero b hb
  | succ i ih =>
    intro hi b hb
    have hei := exp_lt i (by omega)
    have hei1 := exp_lt (i+1) hi
    have hxe : xtime (exp i) < 256 := xtime_lt _ hei.1
    have key : exp (i+1) = xtime (exp i) ^^^ exp i := by
      have h := exp_step i (by omega)
      rw [Nat.mod_eq_of_lt hi] at h
      exact h.symm
    have l1 : pmul (exp (i+1)) b = xtime (multiply (exp i) b) ^^^ multiply (exp i) b := by
      show pmulAux b (exp (i+1)) b = _
      rw [key, pmulAux_xor_left b _ _ b hxe hei.1, pmulAux_xtime b _ b hei.1]
      rw [show pmulAux b (exp i) b = pmul (exp i) b from rfl, ih (by omega) b hb]
    by_cases hb0 : b = 0
    · rw [l1]; subst hb0; simp [multiply, xtime_zero]
    · have hgb : glog b < 255 := (glog_spec b hb hb0).1
      have em : multiply (exp i) b = exp ((i + glog b) % 255) := by
        rw [multiply, if_neg (by push_neg; exact ⟨hei.2, hb0⟩), glog_exp i (by omega)]
      have em1 : multiply (exp (i+1)) b = exp (((i+1) + glog b) % 255) := by
        rw [multiply, if_neg (by push_neg; exact ⟨hei1.2, hb0⟩), glog_exp (i+1) hi]
      have harg : (i + glog b) % 255 < 255 := Nat.mod_lt _ (by norm_num)
      rw [l1, em, exp_step _ harg, em1]
      congr 1
      omega

theorem multiply_comm : ∀ a b : Nat, multiply a b = multiply b a := by
  intro a b
  by_cases ha : a = 0
  · simp [multiply, ha]
  · by_cases hb : b = 0
    · simp [multiply, hb]
    · simp [multiply, ha, hb, Nat.add_comm]

theorem multiply_bridge : ∀ a b : Nat, a < 256 → b < 256 → multiply a b = pmul a b := by
  intro a b ha hb
  by_cases ha0 : a = 0
  · subst ha0
    show multiply 0 b = pmulAux b 0 b
    simp [multiply, pmulAux_zero_left]
  · have hg := glog_spec a ha ha0
    have h := pmul_exp (glog a) hg.1 b hb
    rw [hg.2] at h
    exact h.symm

theorem multiply_xor : ∀ a x y : Nat, a < 256 → x < 256 → y < 256 →
    multiply a (x ^^^ y) = multiply a x ^^^ multiply a y := by
  intro a x y ha hx hy
  have hxy := xor_lt_256 hx hy
  rw [multiply_comm a (x ^^^ y), multiply_bridge _ _ hxy ha]
  show pmulAux a (x ^^^ y) a = _
  rw [pmulAux_xor_left a x y a hx hy]
  rw [show pmulAux a x a = pmul x a from rfl, show pmulAux a y a = pmul y a from rfl]
  rw [← multiply_bridge x a hx ha, ← multiply_bridge y a hy ha,
    multiply_comm x a, multiply_comm y a]

theorem multiply_lt : ∀ a b : Nat, multiply a b < 256 := by
  intro a b
  rw [multiply]
  split
  · norm_num
  · exact (exp_lt _ (Nat.mod_lt _ (by norm_num))).1

theorem multiply_zero_right (a : Nat) : multiply a 0 = 0 := by simp [multiply]

theorem multiply_zero_left (a : Nat) : multiply 0 a = 0 := by simp [multiply]

theorem multiply_one_right : ∀ a : Nat, a < 256 → multiply a 1 = a := by
  intro a ha
  by_cases ha0 : a = 0
  · simp [multiply, ha0]
  · have hg := glog_spec a ha ha0
    rw [multiply, if_neg (by push_neg; exact ⟨ha0, by norm_num⟩), glog_one,
      Nat.add_zero, Nat.mod_eq_of_lt hg.1, hg.2]

theorem multiply_assoc : ∀ a b c : Nat, a < 256 → b < 256 → c < 256 →
    multiply (multiply a b) c = multiply a (multiply b c) := by
  intro a b c ha hb hc
  by_cases ha0 : a = 0
  · simp [ha0, multiply_zero_left]
  by_cases hb0 : b = 0
  · simp [hb0, multiply_zero_left, multiply_zero_right]
  by_cases hc0 : c = 0
  · simp [hc0, multiply_zero_right]
  have hga := glog_spec a ha ha0
  have hgb := glog_spec b hb hb0
  have hgc := glog_spec c hc hc0
  have hab : multiply a b = exp ((glog a + glog b) % 255) := by
    rw [multiply, if_neg (by push_neg; exact ⟨ha0, hb0⟩)]
  have hbc : multiply b c = exp ((glog b + glog c) % 255) := by
    rw [multiply, if_neg (by push_neg; exact ⟨hb0, hc0⟩)]
  have habe := exp_lt ((glog a + glog b) % 255) (Nat.mod_lt _ (by norm_num))
  have hbce := exp_lt ((glog b + glog c) % 255) (Nat.mod_lt _ (by norm_num))
  rw [hab, hbc, multiply, if_neg (by push_neg; exact ⟨habe.2, hc0⟩),
    multiply, if_neg (by push_neg; exact ⟨ha0, hbce.2⟩),
    glog_exp _ (Nat.mod_lt _ (by norm_num)), glog_exp _ (Nat.mod_lt _ (by norm_num))]
  congr 1
  omega

theorem fdiv_lt : ∀ a b : Nat, fdiv a b < 256 := by
  intro a b
  rw [fdiv]
  split
  · norm_num
  · exact (exp_lt _ (Nat.mod_lt _ (by norm_num))).1

theorem fdiv_cancel : ∀ x y : Nat, x < 256 → y < 256 → y ≠ 0 →
    multiply (fdiv x y) y = x := by
  intro x y hx hy hy0
  by_cases hx0 : x = 0
  · simp [fdiv, hx0, multiply_zero_left]
  have hgx := glog_spec x hx hx0
  have hgy := glog_spec y hy hy0
  have hs : fdiv x y = exp ((glog x + (255 - glog y)) % 255) := by rw [fdiv, if_neg hx0]
  have hse := exp_lt ((glog x + (255 - glog y)) % 255) (Nat.mod_lt _ (by norm_num))
  rw [hs, multiply, if_neg (by push_neg; exact ⟨hse.2, hy0⟩),
    glog_exp _ (Nat.mod_lt _ (by norm_num))]
  have harg : ((glog x + (255 - glog y)) % 255 + glog y) % 255 = glog x := by omega
  rw [harg, hgx.2]

theorem padTo_length (n : Nat) (p : List Nat) : (padTo n p).length = max n p.length := by
  simp [padTo]
  omega

theorem padTo_eq_of_le {n : Nat} {p : List Nat} (h : n ≤ p.length) : padTo n p = p := by
  simp [padTo, Nat.sub_eq_zero_of_le h]

theorem padTo_comp {n m : Nat} (p : List Nat) (h1 : p.length ≤ m) (h2 : m ≤ n) :
    padTo n p = List.replicate (n - m) 0 ++ padTo m p := by
  rw [padTo, padTo, ← List.append_assoc, ← List.replicate_add]
  congr 2
  omega

theorem pol_sum_length (a b : List Nat) :
    (gf_256_pol_sum a b).length = max a.length b.length := by
  simp [gf_256_pol_sum, List.length_zipWith, padTo_length]

theorem padTo_pol_sum {n : Nat} (a b : List Nat) (h : max a.length b.length ≤ n) :
    padTo n (gf_256_pol_sum a b) = List.zipWith Nat.xor (padTo n a) (padTo n b) := by
  have hm : (gf_256_pol_sum a b).length = max a.length b.length := pol_sum_length a b
  rw [padTo_comp (gf_256_pol_sum a b) (le_of_eq hm) h,
    padTo_eq_of_le (le_of_eq hm.symm),
    padTo_comp a (Nat.le_max_left _ _) h, padTo_comp b (Nat.le_max_right _ _) h,
    List.zipWith_append _ _ _ _ _ (by simp), List.zipWith_replicate']
  rw [gf_256_pol_sum]
  rfl

theorem zipWith_xor_assoc : ∀ u v w : List Nat,
    List.zipWith Nat.xor (List.zipWith Nat.xor u v) w =
      List.zipWith Nat.xor u (List.zipWith Nat.xor v w) := by
  intro u
  induction u with
  | nil => intro v w; simp
  | cons x u ih =>
    intro v w
    cases v with
    | nil => simp
    | cons y v =>
      cases w with
      | nil => simp
      | cons z w =>
        simp only [List.zipWith_cons_cons, List.cons.injEq]
        exact ⟨Nat.xor_assoc x y z, ih v w⟩

theorem pol_sum_assoc (a b c : List Nat) :
    gf_256_pol_sum (gf_256_pol_sum a b) c = gf_256_pol_sum a (gf_256_pol_sum b c) := by
  have h1 : max (gf_256_pol_sum a b).length c.length =
      max (max a.length b.length) c.length := by rw [pol_sum_length]
  have h2 : max a.length (gf_256_pol_sum b c).length =
      max (max a.length b.length) c.length := by rw [pol_sum_length]; omega
  show List.zipWith Nat.xor
      (padTo (max (gf_256_pol_sum a b).length c.length) (gf_256_pol_sum a b))
      (padTo (max (gf_256_pol_sum a b).length c.length) c) =
    List.zipWith Nat.xor
      (padTo (max a.length (gf_256_pol_sum b c).length) a)
      (padTo (max a.length (gf_256_pol_sum b c).length) (gf_256_pol_sum b c))
  rw [h1, h2]
  rw [padTo_pol_sum a b (by omega), padTo_pol_sum b c (by omega)]
  exact zipWith_xor_assoc _ _ _

theorem pol_sum_comm (a b : List Nat) : gf_256_pol_sum a b = gf_256_pol_sum b a := by
  rw [gf_256_pol_sum, gf_256_pol_sum, Nat.max_comm]
  exact List.zipWith_comm_of_comm _ Nat.xor_comm _ _

theorem zipWith_xor_zero_left : ∀ a : List Nat,
    List.zipWith Nat.xor (List.replicate a.length 0) a = a := by
  intro a
  induction a with
  | nil => rfl
  | cons x a ih =>
    simp only [List.length_cons, List.replicate_succ, List.zipWith_cons_cons, ih]
    exact congrArg (fun y => y :: a) (Nat.zero_xor x)

theorem pol_sum_nil_left (a : List Nat) : gf_256_pol_sum [] a = a := by
  rw [gf_256_pol_sum]
  simp only [List.length_nil, Nat.zero_max]
  rw [padTo_eq_of_le (le_refl _)]
  have hp : padTo a.length ([] : List Nat) = List.replicate a.length 0 := by
    simp [padTo]
  rw [hp]
  exact zipWith_xor_zero_left a

theorem poly_eval_foldl (p : List Nat) (x : Nat) : poly_eval p x = p.foldl (hstep x) 0 := rfl

theorem hstep_zero_zero (x : Nat) : hstep x 0 0 = 0 := by
  simp [hstep, add, multiply_zero_left]

theorem foldl_hstep_lt {x : Nat} : ∀ p : List Nat, (∀ c ∈ p, c < 256) →
    ∀ a, a < 256 → p.foldl (hstep x) a < 256 := by
  intro p
  induction p with
  | nil => intro _ a ha; simpa using ha
  | cons c p ih =>
    intro hp a _
    simp only [List.foldl_cons]
    exact ih (fun d hd => hp d (List.mem_cons_of_mem _ hd))
      _ (xor_lt_256 (multiply_lt _ _) (hp c (List.mem_cons_self _ _)))

theorem mult_xor_left {u v w : Nat} (hu : u < 256) (hv : v < 256) (hw : w < 256) :
    multiply (u ^^^ v) w = multiply u w ^^^ multiply v w := by
  rw [multiply_comm (u ^^^ v) w, multiply_xor w u v hw hu hv,
    multiply_comm w u, multiply_comm w v]

theorem powx_succ (x n : Nat) : RS.powx x (n + 1) = multiply (RS.powx x n) x := by
  rw [RS.powx, RS.powx, List.range_succ, List.foldl_append]
  rfl

theorem powx_lt {x : Nat} (hx : x < 256) : ∀ n, RS.powx x n < 256 := by
  intro n
  induction n with
  | zero => norm_num [RS.powx]
  | succ n ih => rw [powx_succ]; exact multiply_lt _ _

theorem foldl_hstep_split {x : Nat} (hx : x < 256) : ∀ (v : List Nat) (a : Nat),
    (∀ c ∈ v, c < 256) → a < 256 →
    v.foldl (hstep x) a = multiply a (RS.powx x v.length) ^^^ v.foldl (hstep x) 0 := by
  intro v
  induction v with
  | nil =>
    intro a _ ha
    simp [RS.powx, multiply_one_right a ha]
  | cons c v ih =>
    intro a hv ha
    have hc : c < 256 := hv c (List.mem_cons_self _ _)
    have hv' : ∀ d ∈ v, d < 256 := fun d hd => hv d (List.mem_cons_of_mem _ hd)
    have hP : RS.powx x v.length < 256 := powx_lt hx v.length
    simp only [List.foldl_cons, List.length_cons]
    rw [ih (hstep x a c) hv' (by exact xor_lt_256 (multiply_lt _ _) hc),
      ih (hstep x 0 c) hv' (by exact xor_lt_256 (multiply_lt _ _) hc)]
    show multiply (multiply a x ^^^ c) _ ^^^ _ = multiply a _ ^^^ (multiply (multiply 0 x ^^^ c) _ ^^^ _)
    rw [multiply_zero_left, Nat.zero_xor, powx_succ,
      mult_xor_left (multiply_lt a x) hc hP,
      multiply_assoc a x (RS.powx x v.length) ha hx hP,
      multiply_comm x (RS.powx x v.length), ← multiply_assoc a (RS.powx x v.length) x ha hP hx]
    simp only [Nat.xor_assoc]

theorem foldl_hstep_zeros (x : Nat) : ∀ n, (List.replicate n 0).foldl (hstep x) 0 = 0 := by
  intro n
  induction n with
  | zero => rfl
  | succ n ih => simpa [List.replicate_succ, hstep_zero_zero] using ih

theorem poly_eval_pad (x : Nat) (n : Nat) (v : List Nat) :
    poly_eval (List.replicate n 0 ++ v) x = poly_eval v x := by
  rw [poly_eval_foldl, List.foldl_append, foldl_hstep_zeros, ← poly_eval_foldl]

theorem foldl_hstep_zip {x : Nat} (hx : x < 256) : ∀ u v : List Nat, u.length = v.length →
    (∀ c ∈ u, c < 256) → (∀ c ∈ v, c < 256) → ∀ a1 a2 : Nat, a1 < 256 → a2 < 256 →
    (List.zipWith Nat.xor u v).foldl (hstep x) (a1 ^^^ a2) =
      u.foldl (hstep x) a1 ^^^ v.foldl (hstep x) a2 := by
  intro u
  induction u with
  | nil =>
    intro v hl _ _ a1 a2 _ _
    have : v = [] := List.eq_nil_of_length_eq_zero (by simpa using hl.symm)
    subst this
    rfl
  | cons c u ih =>
    intro v hl hu hv a1 a2 h1 h2
    cases v with
    | nil => simp at hl
    | cons d v =>
      have hc : c < 256 := hu c (List.mem_cons_self _ _)
      have hd : d < 256 := hv d (List.mem_cons_self _ _)
      simp only [List.zipWith_cons_cons, List.foldl_cons]
      have step_eq : hstep x (a1 ^^^ a2) (Nat.xor c d) =
          hstep x a1 c ^^^ hstep x a2 d := by
        show multiply (a1 ^^^ a2) x ^^^ (c ^^^ d) = (multiply a1 x ^^^ c) ^^^ (multiply a2 x ^^^ d)
        rw [mult_xor_left h1 h2 hx]
        simp [Nat.xor_assoc, Nat.xor_comm, xor_left_comm]
      rw [step_eq]
      exact ih v (by simpa using hl) (fun e he => hu e (List.mem_cons_of_mem _ he))
        (fun e he => hv e (List.mem_cons_of_mem _ he)) (hstep x a1 c) (hstep x a2 d)
        (show multiply a1 x ^^^ c < 256 from xor_lt_256 (multiply_lt _ _) hc)
        (show multiply a2 x ^^^ d < 256 from xor_lt_256 (multiply_lt _ _) hd)

theorem foldl_hstep_scale {x c : Nat} (hx : x < 256) (hc : c < 256) :
    ∀ b : List Nat, (∀ e ∈ b, e < 256) → ∀ a, a < 256 →
    (b.map (multiply c)).foldl (hstep x) (multiply c a) = multiply c (b.foldl (hstep x) a) := by
  intro b
  induction b with
  | nil => intro _ a _; rfl
  | cons e b ih =>
    intro hb a ha
    have he : e < 256 := hb e (List.mem_cons_self _ _)
    simp only [List.map_cons, List.foldl_cons]
    have step_eq : hstep x (multiply c a) (multiply c e) = multiply c (hstep x a e) := by
      show multiply (multiply c a) x ^^^ multiply c e = multiply c (multiply a x ^^^ e)
      rw [multiply_xor c (multiply a x) e hc (multiply_lt _ _) he,
        multiply_assoc c a x hc ha hx]
    rw [step_eq]
    exact ih (fun d hd => hb d (List.mem_cons_of_mem _ hd)) (hstep x a e)
      (show multiply a x ^^^ e < 256 from xor_lt_256 (multiply_lt _ _) he)

theorem zip_xor_bounded : ∀ u v : List Nat, (∀ c ∈ u, c < 256) → (∀ c ∈ v, c < 256) →
    ∀ c ∈ List.zipWith Nat.xor u v, c < 256 := by
  intro u
  induction u with
  | nil => intro v _ _ c hc; simp at hc
  | cons a u ih =>
    intro v hu hv c hc
    cases v with
    | nil => simp at hc
    | cons b v =>
      simp only [List.zipWith_cons_cons, List.mem_cons] at hc
      rcases hc with hc | hc
      · subst hc
        exact xor_lt_256 (hu a (List.mem_cons_self _ _)) (hv b (List.mem_cons_self _ _))
      · exact ih v (fun d hd => hu d (List.mem_cons_of_mem _ hd))
          (fun d hd => hv d (List.mem_cons_of_mem _ hd)) c hc

theorem scaled_shifted_bounded (b : List Nat) (c s : Nat) :
    ∀ e ∈ b.map (multiply c) ++ List.replicate s 0, e < 256 := by
  intro e he
  rcases List.mem_append.mp he with h | h
  · obtain ⟨d, _, rfl⟩ := List.mem_map.mp h
    exact multiply_lt _ _
  · rw [List.eq_of_mem_replicate h]
    norm_num

theorem sub_len {a b : List Nat} (c : Nat) (h : b.length ≤ a.length) :
    (List.zipWith Nat.xor a (b.map (multiply c) ++ List.replicate (a.length - b.length) 0)).length
      = a.length := by
  simp [List.length_zipWith]
  omega

theorem divmod_rem_length : ∀ (fuel : Nat) (a b : List Nat), a.length ≤ fuel → 1 ≤ b.length →
    (polyDivModAux fuel a b).2.length < b.length := by
  intro fuel
  induction fuel with
  | zero =>
    intro a b hlen hb
    have ha : a = [] := List.eq_nil_of_length_eq_zero (Nat.le_zero.mp hlen)
    subst ha
    simpa [polyDivModAux] using hb
  | succ fuel ih =>
    intro a b hlen hb
    by_cases hcase : a.length < b.length
    · simpa [polyDivModAux, hcase] using hcase
    · have hble : b.length ≤ a.length := Nat.le_of_not_lt hcase
      simp only [polyDivModAux, if_neg hcase]
      refine ih _ b ?_ hb
      rw [List.length_tail, sub_len _ hble]
      omega

theorem divmod_quot_length : ∀ (fuel : Nat) (a b : List Nat), a.length ≤ fuel → 1 ≤ b.length →
    (polyDivModAux fuel a b).1.length = a.length + 1 - b.length := by
  intro fuel
  induction fuel with
  | zero =>
    intro a b hlen hb
    have ha : a = [] := List.eq_nil_of_length_eq_zero (Nat.le_zero.mp hlen)
    subst ha
    simp [polyDivModAux]
    omega
  | succ fuel ih =>
    intro a b hlen hb
    by_cases hcase : a.length < b.length
    · simp [polyDivModAux, hcase]
      omega
    · have hble : b.length ≤ a.length := Nat.le_of_not_lt hcase
      simp only [polyDivModAux, if_neg hcase, List.length_cons]
      rw [ih _ b (by rw [List.length_tail, sub_len _ hble]; omega) hb,
        List.length_tail, sub_len _ hble]
      omega

theorem divmod_rem_bounded : ∀ (fuel : Nat) (a b : List Nat), (∀ c ∈ a, c < 256) →
    ∀ c ∈ (polyDivModAux fuel a b).2, c < 256 := by
  intro fuel
  induction fuel with
  | zero => intro a b ha; exact ha
  | succ fuel ih =>
    intro a b ha
    by_cases hcase : a.length < b.length
    · simpa [polyDivModAux, hcase] using ha
    · simp only [polyDivModAux, if_neg hcase]
      refine ih _ b ?_
      intro c hc
      refine zip_xor_bounded a _ ha (scaled_shifted_bounded b _ _) c (List.mem_of_mem_tail hc)

theorem poly_eval_cons_zero (t : List Nat) (x : Nat) :
    poly_eval (0 :: t) x = poly_eval t x := by
  rw [poly_eval_foldl, poly_eval_foldl, List.foldl_cons, hstep_zero_zero]

theorem poly_eval_append {x : Nat} (hx : x < 256) (u v : List Nat)
    (hu : ∀ c ∈ u, c < 256) (hv : ∀ c ∈ v, c < 256) :
    poly_eval (u ++ v) x =
      multiply (poly_eval u x) (RS.powx x v.length) ^^^ poly_eval v x := by
  rw [poly_eval_foldl, List.foldl_append,
    foldl_hstep_split hx v _ hv (foldl_hstep_lt u hu 0 (by norm_num)),
    ← poly_eval_foldl, ← poly_eval_foldl]

theorem poly_eval_lt {x : Nat} (p : List Nat) (hp : ∀ c ∈ p, c < 256) :
    poly_eval p x < 256 := by
  rw [poly_eval_foldl]
  exact foldl_hstep_lt p hp 0 (by norm_num)

theorem scaled_shifted_eval {b : List Nat} {x : Nat} (hx : x < 256)
    (hbb : ∀ c ∈ b, c < 256) (hroot : poly_eval b x = 0) {c : Nat} (hc : c < 256) (s : Nat) :
    poly_eval (b.map (multiply c) ++ List.replicate s 0) x = 0 := by
  have hmb : ∀ e ∈ b.map (multiply c), e < 256 := by
    intro e he
    obtain ⟨d, _, rfl⟩ := List.mem_map.mp he
    exact multiply_lt _ _
  have hzb : ∀ e ∈ List.replicate s (0 : Nat), e < 256 := by
    intro e he
    rw [List.eq_of_mem_replicate he]
    norm_num
  rw [poly_eval_append hx _ _ hmb hzb]
  have h0 : poly_eval (List.replicate s (0 : Nat)) x = 0 := by
    rw [poly_eval_foldl]
    exact foldl_hstep_zeros x s
  have hscale : poly_eval (b.map (multiply c)) x = 0 := by
    have h := foldl_hstep_scale hx hc b hbb 0 (by norm_num)
    rw [multiply_zero_right] at h
    rw [poly_eval_foldl, h, ← poly_eval_foldl, hroot, multiply_zero_right]
  rw [hscale, h0, multiply_zero_left]
  rfl

theorem divmod_rem_eval {b : List Nat} {x : Nat} (hb0 : b.headD 0 ≠ 0)
    (hbb : ∀ c ∈ b, c < 256) (hx : x < 256) (hroot : poly_eval b x = 0) :
    ∀ (fuel : Nat) (a : List Nat), a.length ≤ fuel → (∀ c ∈ a, c < 256) →
    poly_eval (polyDivModAux fuel a b).2 x = poly_eval a x := by
  intro fuel
  induction fuel with
  | zero =>
    intro a hlen _
    have ha : a = [] := List.eq_nil_of_length_eq_zero (Nat.le_zero.mp hlen)
    subst ha
    rfl
  | succ fuel ih =>
    intro a hlen ha
    by_cases hcase : a.length < b.length
    · simp [polyDivModAux, hcase]
    · have hble : b.length ≤ a.length := Nat.le_of_not_lt hcase
      simp only [polyDivModAux, if_neg hcase]
      set c := fdiv (a.headD 0) (b.headD 0) with hc
      have hclt : c < 256 := fdiv_lt _ _
      set SS := b.map (multiply c) ++ List.replicate (a.length - b.length) 0 with hSS
      have hSSb : ∀ e ∈ SS, e < 256 := scaled_shifted_bounded b c _
      have hSSlen : (List.zipWith Nat.xor a SS).length = a.length := sub_len c hble
      have hsub_bounded : ∀ e ∈ List.zipWith Nat.xor a SS, e < 256 :=
        zip_xor_bounded a SS ha hSSb
      have htail_len : (List.zipWith Nat.xor a SS).tail.length ≤ fuel := by
        rw [List.length_tail, hSSlen]
        omega
      have htail_bounded : ∀ e ∈ (List.zipWith Nat.xor a SS).tail, e < 256 :=
        fun e he => hsub_bounded e (List.mem_of_mem_tail he)
      rw [ih _ htail_len htail_bounded]
      -- the running difference has a zero leading coefficient
      obtain ⟨b0, bt, rfl⟩ : ∃ b0 bt, b = b0 :: bt := by
        cases b with
        | nil => simp at hb0
        | cons b0 bt => exact ⟨b0, bt, rfl⟩
      obtain ⟨a0, atl, rfl⟩ : ∃ a0 atl, a = a0 :: atl := by
        cases a with
        | nil => simp at hble
        | cons a0 atl => exact ⟨a0, atl, rfl⟩
      have hb0' : b0 ≠ 0 := hb0
      have ha0 : a0 < 256 := ha a0 (List.mem_cons_self _ _)
      have hb0lt : b0 < 256 := hbb b0 (List.mem_cons_self _ _)
      have hhead : Nat.xor a0 (multiply c b0) = 0 := by
        rw [hc, show (a0 :: atl).headD 0 = a0 from rfl, show (b0 :: bt).headD 0 = b0 from rfl,
          fdiv_cancel a0 b0 ha0 hb0lt hb0']
        exact Nat.xor_self a0
      have hSS_cons : SS = multiply c b0 :: (bt.map (multiply c) ++
          List.replicate ((a0 :: atl).length - (b0 :: bt).length) 0) := by
        rw [hSS]
        rfl
      have hzip : List.zipWith Nat.xor (a0 :: atl) SS =
          0 :: List.zipWith Nat.xor atl (bt.map (multiply c) ++
            List.replicate ((a0 :: atl).length - (b0 :: bt).length) 0) := by
        rw [hSS_cons, List.zipWith_cons_cons, hhead]
      rw [hzip]
      show poly_eval (List.zipWith Nat.xor atl _) x = poly_eval (a0 :: atl) x
      -- relate: eval (0 :: zip atl rest) = eval a ^^^ eval SS = eval a
      have hSSeval : poly_eval SS x = 0 := by
        rw [hSS]
        exact scaled_shifted_eval hx hbb hroot hclt _
      have hzip_eval : poly_eval (List.zipWith Nat.xor (a0 :: atl) SS) x =
          poly_eval (a0 :: atl) x ^^^ poly_eval SS x := by
        rw [poly_eval_foldl, poly_eval_foldl, poly_eval_foldl]
        have hlen_eq : (a0 :: atl).length = SS.length := by
          rw [hSS]
          simp only [List.length_append, List.length_map, List.length_replicate,
            List.length_cons]
          have hble' : bt.length + 1 ≤ atl.length + 1 := by simpa using hble
          omega
        have h := foldl_hstep_zip hx (a0 :: atl) SS hlen_eq ha hSSb 0 0 (by norm_num) (by norm_num)
        simpa using h
      have := hzip_eval
      rw [hzip, poly_eval_cons_zero, hSSeval, Nat.xor_zero] at this
      exact this

theorem genTable_length : genTable.length = 33 := rfl

theorem genTable_head : genTable.headD 0 ≠ 0 := by decide

theorem genTable_bounded : ∀ c ∈ genTable, c < 256 := by decide

theorem genTable_build : genTable = genBuild 32 := by decide

theorem genTable_roots : ∀ i, i < 32 → poly_eval genTable (exp (i + 1)) = 0 := by decide

theorem base_bounded {data : List Nat} (hd : ∀ c ∈ data, c < 256) :
    ∀ c ∈ data ++ [data.length % 256], c < 256 := by
  intro c hc
  rcases List.mem_append.mp hc with h | h
  · exact hd c h
  · rw [List.mem_singleton.mp h]
    exact Nat.mod_lt _ (by norm_num)

theorem shifted_bounded {data : List Nat} (hd : ∀ c ∈ data, c < 256) :
    ∀ c ∈ (data ++ [data.length % 256]) ++ List.replicate 32 0, c < 256 := by
  intro c hc
  rcases List.mem_append.mp hc with h | h
  · exact base_bounded hd c h
  · rw [List.eq_of_mem_replicate h]
    norm_num

theorem encode_unfold (data : List Nat) :
    RS.encode data = (data ++ [data.length % 256]) ++
      padTo 32 (polyDivMod ((data ++ [data.length % 256]) ++ List.replicate 32 0) genTable).2 := rfl

theorem parity_rem_length (data : List Nat) :
    (polyDivMod ((data ++ [data.length % 256]) ++ List.replicate 32 0) genTable).2.length < 33 := by
  rw [← genTable_length]
  exact divmod_rem_length _ _ genTable le_rfl (by rw [genTable_length]; norm_num)

theorem encode_length (data : List Nat) : (RS.encode data).length = data.length + 33 := by
  rw [encode_unfold]
  have hr := parity_rem_length data
  simp only [List.length_append, padTo_length, List.length_singleton]
  omega

theorem encode_bounded {data : List Nat} (hd : ∀ c ∈ data, c < 256) :
    ∀ c ∈ RS.encode data, c < 256 := by
  rw [encode_unfold]
  intro c hc
  rcases List.mem_append.mp hc with h | h
  · exact base_bounded hd c h
  · rcases List.mem_append.mp h with h2 | h2
    · rw [List.eq_of_mem_replicate h2]; norm_num
    · exact divmod_rem_bounded _ _ genTable (shifted_bounded hd) c h2

theorem encode_eval_zero {data : List Nat} (hd : ∀ c ∈ data, c < 256) :
    ∀ i, i < 32 → poly_eval (RS.encode data) (exp (i + 1)) = 0 := by
  intro i hi
  have hx : exp (i+1) < 256 := (exp_lt (i+1) (by omega)).1
  have hroot : poly_eval genTable (exp (i+1)) = 0 := genTable_roots i hi
  have hbb := base_bounded hd
  have hAb := shifted_bounded hd
  have hr := parity_rem_length data
  have hrb := divmod_rem_bounded ((data ++ [data.length % 256]) ++ List.replicate 32 0).length
    ((data ++ [data.length % 256]) ++ List.replicate 32 0) genTable hAb
  have hre : poly_eval (polyDivMod ((data ++ [data.length % 256]) ++ List.replicate 32 0) genTable).2 (exp (i+1)) =
      poly_eval ((data ++ [data.length % 256]) ++ List.replicate 32 0) (exp (i+1)) :=
    divmod_rem_eval genTable_head genTable_bounded hx hroot _ _ le_rfl hAb
  have hpadb : ∀ c ∈ padTo 32 (polyDivMod ((data ++ [data.length % 256]) ++ List.replicate 32 0) genTable).2, c < 256 := by
    intro c hc
    rcases List.mem_append.mp hc with h | h
    · rw [List.eq_of_mem_replicate h]; norm_num
    · exact hrb c h
  have hzb : ∀ c ∈ List.replicate 32 (0:Nat), c < 256 := by
    intro c hc; rw [List.eq_of_mem_replicate hc]; norm_num
  have hpadlen : (padTo 32 (polyDivMod ((data ++ [data.length % 256]) ++ List.replicate 32 0) genTable).2).length = 32 := by
    rw [padTo_length]; omega
  have hApad : poly_eval (padTo 32 (polyDivMod ((data ++ [data.length % 256]) ++ List.replicate 32 0) genTable).2) (exp (i+1)) =
      poly_eval ((data ++ [data.length % 256]) ++ List.replicate 32 0) (exp (i+1)) := by
    rw [padTo, poly_eval_pad, hre]
  have hA : poly_eval ((data ++ [data.length % 256]) ++ List.replicate 32 0) (exp (i+1)) =
      multiply (poly_eval (data ++ [data.length % 256]) (exp (i+1))) (RS.powx (exp (i+1)) 32) := by
    rw [poly_eval_append hx _ _ hbb hzb]
    rw [show (List.replicate 32 (0:Nat)).length = 32 from rfl]
    rw [show poly_eval (List.replicate 32 (0:Nat)) (exp (i+1)) = 0 from foldl_hstep_zeros _ 32]
    exact Nat.xor_zero _
  rw [encode_unfold, poly_eval_append hx _ _ hbb hpadb, hApad, hA, hpadlen]
  exact Nat.xor_self _

theorem syndromes_encode {data : List Nat} (hd : ∀ c ∈ data, c < 256) :
    RS.syndromes (RS.encode data) = List.replicate 32 0 := by
  rw [RS.syndromes]
  apply List.eq_replicate.mpr
  constructor
  · simp
  · intro b hb
    obtain ⟨i, hi, rfl⟩ := List.mem_map.mp hb
    exact encode_eval_zero hd i (List.mem_range.mp hi)

theorem decode_encode {data : List Nat} (hd : ∀ c ∈ data, c < 256) :
    RS.decode (RS.encode data) = some data := by
  have hall : (RS.syndromes (RS.encode data)).all (fun s => s == 0) = true := by
    rw [syndromes_encode hd]
    simp
  rw [RS.decode, if_pos hall, encode_length]
  congr 1
  have hstep1 : data.length + 33 - 33 = data.length := by omega
  rw [hstep1, encode_unfold, List.append_assoc]
  exact List.take_left data _

theorem zip_xor_invol : ∀ u v : List Nat, u.length = v.length →
    List.zipWith Nat.xor v (List.zipWith Nat.xor u v) = u := by
  intro u
  induction u with
  | nil =>
    intro v hl
    have : v = [] := List.eq_nil_of_length_eq_zero (by simpa using hl.symm)
    subst this
    rfl
  | cons x u ih =>
    intro v hl
    cases v with
    | nil => simp at hl
    | cons y v =>
      simp only [List.zipWith_cons_cons, List.cons.injEq]
      refine ⟨?_, ih v (by simpa using hl)⟩
      show y ^^^ (x ^^^ y) = x
      rw [Nat.xor_comm x y]
      exact Nat.xor_cancel_left y x

theorem pol_multiply_nil (v : List Nat) : gf_256_pol_multiply [] v = [] := rfl

theorem pol_multiply_length : ∀ u v : List Nat, u ≠ [] →
    (gf_256_pol_multiply u v).length = u.length + v.length - 1 := by
  intro u
  induction u with
  | nil => intro v h; exact absurd rfl h
  | cons c u ih =>
    intro v _
    show (gf_256_pol_sum (v.map (multiply c) ++ List.replicate u.length 0)
      (gf_256_pol_multiply u v)).length = _
    rw [pol_sum_length]
    cases u with
    | nil =>
      simp [pol_multiply_nil]
    | cons c2 u2 =>
      rw [ih v (by simp)]
      simp only [List.length_append, List.length_map, List.length_replicate, List.length_cons]
      omega

theorem divmod_identity : ∀ (fuel : Nat) (a b : List Nat), a.length ≤ fuel →
    (∀ c ∈ a, c < 256) → (∀ c ∈ b, c < 256) → b.headD 0 ≠ 0 →
    gf_256_pol_sum (gf_256_pol_multiply (polyDivModAux fuel a b).1 b)
      (polyDivModAux fuel a b).2 = a := by
  intro fuel
  induction fuel with
  | zero =>
    intro a b hlen _ _ _
    have ha : a = [] := List.eq_nil_of_length_eq_zero (Nat.le_zero.mp hlen)
    subst ha
    show gf_256_pol_sum (gf_256_pol_multiply [] b) [] = []
    rw [pol_multiply_nil, pol_sum_nil_left]
  | succ fuel ih =>
    intro a b hlen ha hb hb0
    by_cases hcase : a.length < b.length
    · simp only [polyDivModAux, if_pos hcase]
      rw [pol_multiply_nil, pol_sum_nil_left]
    · have hble : b.length ≤ a.length := Nat.le_of_not_lt hcase
      have hbne : b ≠ [] := by
        intro h
        rw [h] at hb0
        simp at hb0
      have hb1 : 1 ≤ b.length := by
        cases b with
        | nil => exact absurd rfl hbne
        | cons x t => simp
      simp only [polyDivModAux, if_neg hcase]
      set c := fdiv (a.headD 0) (b.headD 0) with hc
      set SS := b.map (multiply c) ++ List.replicate (a.length - b.length) 0 with hSS
      have hSSlen : (List.zipWith Nat.xor a SS).length = a.length := sub_len c hble
      have htail_len : (List.zipWith Nat.xor a SS).tail.length ≤ fuel := by
        rw [List.length_tail, hSSlen]; omega
      have htail_bounded : ∀ e ∈ (List.zipWith Nat.xor a SS).tail, e < 256 :=
        fun e he => zip_xor_bounded a SS ha (scaled_shifted_bounded b c _) e (List.mem_of_mem_tail he)
      have hIH := ih (List.zipWith Nat.xor a SS).tail b htail_len htail_bounded hb hb0
      have hql : (polyDivModAux fuel (List.zipWith Nat.xor a SS).tail b).1.length
          = a.length - b.length := by
        rw [divmod_quot_length fuel _ b htail_len hb1, List.length_tail, hSSlen]
        omega
      show gf_256_pol_sum (gf_256_pol_multiply
        (c :: (polyDivModAux fuel (List.zipWith Nat.xor a SS).tail b).1) b) _ = a
      rw [show gf_256_pol_multiply (c :: (polyDivModAux fuel (List.zipWith Nat.xor a SS).tail b).1) b
          = gf_256_pol_sum (b.map (multiply c) ++
              List.replicate (polyDivModAux fuel (List.zipWith Nat.xor a SS).tail b).1.length 0)
            (gf_256_pol_multiply (polyDivModAux fuel (List.zipWith Nat.xor a SS).tail b).1 b) from rfl]
      rw [hql, ← hSS, pol_sum_assoc, hIH]
      -- remaining: gf_256_pol_sum SS (zipWith xor a SS).tail = a
      obtain ⟨b0, bt, rfl⟩ : ∃ b0 bt, b = b0 :: bt := by
        cases b with
        | nil => exact absurd rfl hbne
        | cons b0 bt => exact ⟨b0, bt, rfl⟩
      obtain ⟨a0, atl, rfl⟩ : ∃ a0 atl, a = a0 :: atl := by
        cases a with
        | nil => simp at hble
        | cons a0 atl => exact ⟨a0, atl, rfl⟩
      have ha0 : a0 < 256 := ha a0 (List.mem_cons_self _ _)
      have hb0lt : b0 < 256 := hb b0 (List.mem_cons_self _ _)
      have hhead : multiply c b0 = a0 := by
        rw [hc]
        exact fdiv_cancel a0 b0 ha0 hb0lt hb0
      have hSS_cons : SS = a0 :: (bt.map (multiply c) ++
          List.replicate ((a0 :: atl).length - (b0 :: bt).length) 0) := by
        rw [hSS, List.map_cons, hhead]
        rfl
      have hSSfull : SS.length = (a0 :: atl).length := by
        rw [hSS]
        simp only [List.length_append, List.length_map, List.length_replicate, List.length_cons]
        have hble' : bt.length + 1 ≤ atl.length + 1 := by simpa using hble
        omega
      have hzip : List.zipWith Nat.xor (a0 :: atl) SS =
          Nat.xor a0 a0 :: List.zipWith Nat.xor atl (bt.map (multiply c) ++
            List.replicate ((a0 :: atl).length - (b0 :: bt).length) 0) := by
        rw [hSS_cons, List.zipWith_cons_cons]
      rw [hzip]
      show gf_256_pol_sum SS (List.zipWith Nat.xor atl _) = a0 :: atl
      have htlen : (List.zipWith Nat.xor atl (bt.map (multiply c) ++
          List.replicate ((a0 :: atl).length - (b0 :: bt).length) 0)).length = atl.length := by
        have h1 : List.zipWith Nat.xor (a0 :: atl) SS =
            Nat.xor a0 a0 :: List.zipWith Nat.xor atl (bt.map (multiply c) ++
              List.replicate ((a0 :: atl).length - (b0 :: bt).length) 0) := hzip
        have h2 := hSSlen
        rw [h1] at h2
        simpa using h2
      rw [gf_256_pol_sum]
      have hmax : max SS.length (List.zipWith Nat.xor atl (bt.map (multiply c) ++
          List.replicate ((a0 :: atl).length - (b0 :: bt).length) 0)).length
          = (a0 :: atl).length := by
        rw [htlen, hSSfull]
        simp
      rw [hmax, padTo_eq_of_le (le_of_eq hSSfull.symm), hSS_cons]
      rw [show padTo (a0 :: atl).length (List.zipWith Nat.xor atl (bt.map (multiply c) ++
          List.replicate ((a0 :: atl).length - (b0 :: bt).length) 0))
          = 0 :: List.zipWith Nat.xor atl (bt.map (multiply c) ++
            List.replicate ((a0 :: atl).length - (b0 :: bt).length) 0) from by
        rw [padTo, htlen]
        simp [List.replicate_succ]]
      rw [List.zipWith_cons_cons]
      have htSS : atl.length = (bt.map (multiply c) ++
          List.replicate ((a0 :: atl).length - (b0 :: bt).length) 0).length := by
        have := hSSfull
        rw [hSS_cons] at this
        simpa using this.symm
      rw [zip_xor_invol atl _ htSS]
      simp only [List.cons.injEq]
      exact ⟨Nat.xor_zero a0, trivial⟩

theorem encode_take (data : List Nat) : (RS.encode data).take data.length = data := by
  rw [encode_unfold, List.append_assoc]
  exact List.take_left data _

theorem encode_drop (data : List Nat) : (RS.encode data).drop data.length =
    (data.length % 256) :: padTo 32 (polyDivMod ((data ++ [data.length % 256]) ++
      List.replicate 32 0) genTable).2 := by
  rw [encode_unfold, List.append_assoc]
  rw [List.drop_left data _]
  rfl

theorem inverse_mult : ∀ a, a < 256 → a ≠ 0 → multiply a ((inverse a).getD 0) = 1 := by decide

theorem applyErrors_some_length (S C : List Nat) :
    ∀ (Ds : List Nat) (acc : Option (List Nat)) (n : Nat),
    (∀ w', acc = some w' → w'.length = n) →
    ∀ w, Ds.foldl (fun acc D => acc.bind (fun w =>
      let Xinv := exp ((255 - D) % 255)
      let den := RS.derivEval C Xinv
      if den = 0 then none
      else if w.length ≤ D then none
      else
        let p := w.length - 1 - D
        some (w.set p (w.getD p 0 ^^^ fdiv (RS.evalLow (RS.omegaPoly S C) Xinv) den))))
      acc = some w → w.length = n := by
  intro Ds
  induction Ds with
  | nil =>
    intro acc n hacc w h
    exact hacc w h
  | cons D Ds ih =>
    intro acc n hacc w h
    simp only [List.foldl_cons] at h
    refine ih _ n ?_ w h
    intro w' hw'
    cases acc with
    | none => exact Option.noConfusion hw'
    | some w0 =>
      have hw0 : w0.length = n := hacc w0 rfl
      simp only [Option.some_bind] at hw'
      by_cases h1 : RS.derivEval C (exp ((255 - D) % 255)) = 0
      · rw [if_pos h1] at hw'
        cases hw'
      · rw [if_neg h1] at hw'
        by_cases h2 : w0.length ≤ D
        · rw [if_pos h2] at hw'
          cases hw'
        · rw [if_neg h2] at hw'
          injection hw' with hw2
          rw [← hw2, List.length_set]
          exact hw0

/-- C8: decode never silently skips re-verification — whenever `decode` returns a
result, that result is the data part of a word (the received word itself on the
zero-syndrome fast path, or the magnitude-corrected word) whose recomputed syndromes
are all zero; every other path fails with UncorrectableError (`none`). -/
theorem decode_reverified : ∀ r d : List Nat, RS.decode r = some d →
    ∃ w : List Nat, (RS.syndromes w).all (fun s => s == 0) = true ∧
      d = w.take (w.length - 33) ∧ w.length = r.length := by
  intro r d h
  simp only [RS.decode] at h
  generalize hS : RS.syndromes r = S at h
  generalize hCL : RS.bm S = CL at h
  generalize hDs : RS.chien CL.1 = Ds at h
  split at h
  · next hall =>
      refine ⟨r, ?_, ?_, rfl⟩
      · rw [hS]; exact hall
      · injection h with h2
        exact h2.symm
  · split at h
    · cases h
    · split at h
      · cases h
      · split at h
        · cases h
        · next w happ =>
            split at h
            · next hall =>
                injection h with h2
                refine ⟨w, hall, h2.symm, ?_⟩
                exact applyErrors_some_length S CL.1 Ds (some r) r.length
                  (fun w' hw' => by injection hw' with h3; rw [← h3]) w happ
            · cases h

/-- Witness for C8 at a concrete input: the all-zero 43-symbol word decodes (fast
path), so the re-verified word exists. -/
theorem c8_decode_reverified_witness : ∃ w : List Nat,
    (RS.syndromes w).all (fun s => s == 0) = true ∧
    List.replicate 10 0 = w.take (w.length - 33) ∧
    w.length = (List.replicate 43 (0 : Nat)).length :=
  decode_reverified (List.replicate 43 0) (List.replicate 10 0) (by rfl)

/-- Notebook cell 8: the printed sum of the two demonstration polynomials. -/
theorem notebook_cell8_sum :
    gf_256_pol_sum [75, 0, 127, 240, 3] [4, 92, 13] = [75, 0, 123, 172, 14] := by decide

/-- Notebook cell 8: subtraction coincides with addition. -/
theorem notebook_cell8_subtract :
    gf_256_pol_subtract [75, 0, 127, 240, 3] [4, 92, 13] = [75, 0, 123, 172, 14] := by decide

/-- Notebook cell 8: the printed product of the two demonstration polynomials. -/
theorem notebook_cell8_multiply :
    gf_256_pol_multiply [75, 0, 127, 240, 3] [4, 92, 13] =
      [55, 216, 245, 156, 166, 56, 23] := by decide

/-- Notebook cell 8: the printed "Divided" value — a single list, the quotient
left-padded with zeros to the dividend's length. -/
theorem notebook_cell8_divide :
    gf_256_pol_divide [75, 0, 127, 240, 3] [4, 92, 13] = some [0, 0, 84, 128, 197] := by decide

/-- Notebook cell 10: the model's encoder reproduces the printed "Sent bytes"
byte for byte. -/
theorem notebook_cell10_encode : RS.encode msgBytes = sentBytes := by rfl

/-- Notebook cell 10: the model's decoder corrects the four corrupted symbols of the
printed "Received bytes" back to the original message bytes. -/
theorem notebook_cell10_decode : RS.decode receivedBytes = some msgBytes := by rfl

/-- C6 counterexample: at notebook cell 8's inputs, `gf_256_pol_divide` returns the
single zero-padded quotient list, not a (quotient, remainder) pair; interpreting that
returned list as the quotient, the division identity fails against the true remainder
[56, 141]. -/
theorem c6_counterexample :
    gf_256_pol_divide [75, 0, 127, 240, 3] [4, 92, 13] = some [0, 0, 84, 128, 197] ∧
    (polyDivMod [75, 0, 127, 240, 3] [4, 92, 13]).2 = [56, 141] ∧
    gf_256_pol_sum (gf_256_pol_multiply [0, 0, 84, 128, 197] [4, 92, 13]) [56, 141] ≠
      [75, 0, 127, 240, 3] := by decide

/-- C6 (amended): the long division underlying `gf_256_pol_divide` produces a
(quotient, remainder) pair satisfying poly_add(poly_multiply(quotient, b), remainder)
= a; the function itself returns only the quotient left-padded to len(a), and fails
with DivisionByZero when b is empty or its leading coefficient is 0. -/
theorem c6_amended : ∀ a b : List Nat, (∀ c ∈ a, c < 256) → (∀ c ∈ b, c < 256) →
    (b.headD 0 ≠ 0 →
      gf_256_pol_sum (gf_256_pol_multiply (polyDivMod a b).1 b) (polyDivMod a b).2 = a ∧
      gf_256_pol_divide a b = some (padTo a.length (polyDivMod a b).1)) ∧
    (b.headD 0 = 0 → gf_256_pol_divide a b = none) := by
  intro a b ha hb
  constructor
  · intro hb0
    refine ⟨divmod_identity a.length a b le_rfl ha hb hb0, ?_⟩
    rw [gf_256_pol_divide, if_neg hb0]
  · intro hb0
    rw [gf_256_pol_divide, if_pos hb0]

/-- Witness for C6 (amended) at notebook cell 8's concrete polynomials. -/
theorem c6_amended_witness :
    gf_256_pol_sum
      (gf_256_pol_multiply (polyDivMod [75, 0, 127, 240, 3] [4, 92, 13]).1 [4, 92, 13])
      (polyDivMod [75, 0, 127, 240, 3] [4, 92, 13]).2 = [75, 0, 127, 240, 3] ∧
    gf_256_pol_divide [75, 0, 127, 240, 3] [4, 92, 13] =
      some (padTo ([75, 0, 127, 240, 3] : List Nat).length
        (polyDivMod [75, 0, 127, 240, 3] [4, 92, 13]).1) :=
  (c6_amended [75, 0, 127, 240, 3] [4, 92, 13] (by decide) (by decide)).1 (by decide)

/-- C7: field arithmetic closure — add and multiply stay in [0,255], every nonzero
element times its inverse is 1, and division by the zero element fails. -/
theorem c7_field_closure : ∀ a b : Nat, a < 256 → b < 256 →
    (add a b < 256 ∧ multiply a b < 256) ∧
    (a ≠ 0 → multiply a ((inverse a).getD 0) = 1) ∧
    divide a 0 = none := by
  intro a b ha hb
  exact ⟨⟨xor_lt_256 ha hb, multiply_lt a b⟩,
    fun h0 => inverse_mult a ha h0, rfl⟩

/-- Witness for C7 at a = 3, b = 7. -/
theorem c7_field_closure_witness :
    (add 3 7 < 256 ∧ multiply 3 7 < 256) ∧
    ((3 : Nat) ≠ 0 → multiply 3 ((inverse 3).getD 0) = 1) ∧
    divide 3 0 = none :=
  c7_field_closure 3 7 (by decide) (by decide)

/-- C10: shorter-than-k inputs are encoded without padding into len(data) + 33
symbols, and such shorter codewords decode back to the data exactly. -/
theorem c10_short_blocks : ∀ data : List Nat, data.length < 223 → (∀ c ∈ data, c < 256) →
    (RS.encode data).length = data.length + 33 ∧
    RS.decode (RS.encode data) = some data :=
  fun data _ hd => ⟨encode_length data, decode_encode hd⟩

/-- Witness for C10 at the notebook's 10-symbol message. -/
theorem c10_short_blocks_witness :
    (RS.encode msgBytes).length = msgBytes.length + 33 ∧
    RS.decode (RS.encode msgBytes) = some msgBytes :=
  c10_short_blocks msgBytes (by decide) (by decide)


theorem encodeMessage_of_le {data : List Nat} (h : data.length ≤ 222) :
    RS.encodeMessage data = RS.encode data := by
  rw [RS.encodeMessage]
  cases hl : data.length with
  | zero => rfl
  | succ n =>
    simp only [RS.encodeMessageAux]
    rw [if_pos h]

theorem decodeMessage_of_le {r : List Nat} (h : r.length ≤ 255) :
    RS.decodeMessage r = RS.decode r := by
  rw [RS.decodeMessage]
  cases hl : r.length with
  | zero => rfl
  | succ n =>
    simp only [RS.decodeMessageAux]
    rw [if_pos h]

theorem encodeMessageAux_irrel : ∀ f1 f2 : Nat, ∀ d : List Nat, d.length ≤ f1 → d.length ≤ f2 →
    RS.encodeMessageAux f1 d = RS.encodeMessageAux f2 d := by
  intro f1
  induction f1 with
  | zero =>
    intro f2 d h1 _
    have hnil : d = [] := List.eq_nil_of_length_eq_zero (Nat.le_zero.mp h1)
    subst hnil
    cases f2 with
    | zero => rfl
    | succ f2 => simp [RS.encodeMessageAux]
  | succ f1 ih =>
    intro f2 d h1 h2
    cases f2 with
    | zero =>
      have hnil : d = [] := List.eq_nil_of_length_eq_zero (Nat.le_zero.mp h2)
      subst hnil
      simp [RS.encodeMessageAux]
    | succ f2 =>
      by_cases hle : d.length ≤ 222
      · simp only [RS.encodeMessageAux, if_pos hle]
      · simp only [RS.encodeMessageAux, if_neg hle]
        congr 1
        exact ih f2 (d.drop 222) (by rw [List.length_drop]; omega) (by rw [List.length_drop]; omega)

theorem encodeMessage_split {data : List Nat} (h : 222 < data.length) :
    RS.encodeMessage data = RS.encode (data.take 222) ++ RS.encodeMessage (data.drop 222) := by
  rw [RS.encodeMessage, RS.encodeMessage]
  obtain ⟨n, hn⟩ : ∃ n, data.length = n + 1 := ⟨data.length - 1, by omega⟩
  rw [hn]
  simp only [RS.encodeMessageAux]
  rw [if_neg (by omega)]
  congr 1
  exact encodeMessageAux_irrel n (data.drop 222).length (data.drop 222)
    (by rw [List.length_drop]; omega) le_rfl

theorem encodeMessageAux_length : ∀ (fuel : Nat) (data : List Nat),
    data.length + 33 ≤ (RS.encodeMessageAux fuel data).length := by
  intro fuel
  induction fuel with
  | zero =>
    intro data
    rw [show RS.encodeMessageAux 0 data = RS.encode data from rfl, encode_length]
  | succ fuel ih =>
    intro data
    by_cases h : data.length ≤ 222
    · simp only [RS.encodeMessageAux, if_pos h, encode_length]
      omega
    · simp only [RS.encodeMessageAux, if_neg h, List.length_append]
      have h1 := ih (data.drop 222)
      have h2 : (RS.encode (data.take 222)).length = 255 := by
        rw [encode_length, List.length_take]
        omega
      have h3 : (data.drop 222).length = data.length - 222 := List.length_drop _ _
      omega

theorem decodeMessageAux_encodeMessageAux : ∀ (fuel1 : Nat) (data : List Nat) (fuel2 : Nat),
    data.length ≤ fuel1 → data.length ≤ fuel2 → (∀ c ∈ data, c < 256) →
    RS.decodeMessageAux fuel2 (RS.encodeMessageAux fuel1 data) = some data := by
  intro fuel1
  induction fuel1 with
  | zero =>
    intro data fuel2 h1 _ hd
    have hnil : data = [] := List.eq_nil_of_length_eq_zero (Nat.le_zero.mp h1)
    subst hnil
    show RS.decodeMessageAux fuel2 (RS.encode []) = some []
    cases fuel2 with
    | zero => exact decode_encode hd
    | succ f =>
      simp only [RS.decodeMessageAux]
      rw [if_pos (by rw [encode_length]; omega)]
      exact decode_encode hd
  | succ fuel ih =>
    intro data fuel2 h1 h2 hd
    by_cases hle : data.length ≤ 222
    · simp only [RS.encodeMessageAux, if_pos hle]
      cases fuel2 with
      | zero => exact decode_encode hd
      | succ f =>
        simp only [RS.decodeMessageAux]
        rw [if_pos (by rw [encode_length]; omega)]
        exact decode_encode hd
    · simp only [RS.encodeMessageAux, if_neg hle]
      cases fuel2 with
      | zero => omega
      | succ f2 =>
        have ht : ∀ c ∈ data.take 222, c < 256 := fun c hc => hd c (List.mem_of_mem_take hc)
        have hdr : ∀ c ∈ data.drop 222, c < 256 := fun c hc => hd c (List.mem_of_mem_drop hc)
        have hA : (RS.encode (data.take 222)).length = 255 := by
          rw [encode_length, List.length_take]
          omega
        have hrest := encodeMessageAux_length fuel (data.drop 222)
        have h3 : (data.drop 222).length = data.length - 222 := List.length_drop _ _
        simp only [RS.decodeMessageAux]
        rw [if_neg (by rw [List.length_append, hA]; omega)]
        rw [List.take_left' hA, List.drop_left' hA, decode_encode ht,
          ih (data.drop 222) f2 (by omega) (by omega) hdr]
        simp only [Option.some_bind, Option.map_some']
        rw [List.take_append_drop]

theorem decodeMessage_encodeMessage {data : List Nat} (hd : ∀ c ∈ data, c < 256) :
    RS.decodeMessage (RS.encodeMessage data) = some data := by
  rw [RS.decodeMessage, RS.encodeMessage]
  exact decodeMessageAux_encodeMessageAux data.length data
    (RS.encodeMessageAux data.length data).length le_rfl
    (by have := encodeMessageAux_length data.length data; omega) hd

/-- Notebook cell 10 at message level: the program's top-level encode of the short
message equals the printed "Sent bytes" (a single block). -/
theorem notebook_cell10_encode_message : RS.encodeMessage msgBytes = sentBytes := by
  rw [encodeMessage_of_le (by decide)]
  rfl

/-- Notebook cell 10 at message level: the top-level decode corrects the printed
"Received bytes" back to the message. -/
theorem notebook_cell10_decode_message : RS.decodeMessage receivedBytes = some msgBytes := by
  rw [decodeMessage_of_le (by decide)]
  rfl

/-- Notebook cells 12 and 14: the 223-symbol Lorem-ipsum message encodes to two
blocks, 289 symbols = 2312 bits, inside the interval (2304, 2328] that cell 14's
burst positions force for the encoded bit length. -/
theorem notebook_cell14_length :
    (RS.encodeMessage loremBytes).length = 289 ∧
    8 * 289 = 2312 ∧ 2304 < 2312 ∧ 2312 ≤ 2328 := by
  refine ⟨?_, by norm_num, by norm_num, by norm_num⟩
  rw [encodeMessage_split (by decide), List.length_append,
    encodeMessage_of_le (by rw [List.length_drop]; decide), encode_length, encode_length,
    List.length_take, List.length_drop]
  decide

/-- Notebook cell 17: decoding the burst-corrupted two-block transmission (twelve
corrupted symbols in the first block, three in the second) recovers the Lorem-ipsum
message exactly. -/
theorem notebook_cell17_decode : RS.decodeMessage cell17Received = some loremBytes := by rfl

/-- C2: round-trip without corruption — for every data block of length k = 223 with
symbols in [0,255], decoding the encoded message returns the block exactly (the
encoder frames it into two blocks, each of which round-trips through the
zero-syndrome fast path). -/
theorem c2_round_trip : ∀ d : List Nat, d.length = 223 → (∀ c ∈ d, c < 256) →
    RS.decodeMessage (RS.encodeMessage d) = some d :=
  fun _ _ hd => decodeMessage_encodeMessage hd

/-- Witness for C2 at the concrete block of 223 twos. -/
theorem c2_round_trip_witness :
    RS.decodeMessage (RS.encodeMessage (List.replicate 223 2)) =
      some (List.replicate 223 2) :=
  c2_round_trip (List.replicate 223 2) rfl (by decide)

/-- C3 counterexample: the notebook's 10-symbol input encodes to 43 symbols and the
223-symbol Lorem-ipsum message to 289 symbols (two blocks, cells 12-14) — neither is
the claimed fixed 255-symbol codeword. -/
theorem c3_counterexample :
    (RS.encodeMessage msgBytes).length = 43 ∧
    (RS.encodeMessage loremBytes).length = 289 ∧
    (43 : Nat) ≠ 255 ∧ (289 : Nat) ≠ 255 := by
  refine ⟨?_, ?_, by decide, by decide⟩
  · rw [encodeMessage_of_le (by decide), encode_length]
    decide
  · rw [encodeMessage_split (by decide), List.length_append,
      encodeMessage_of_le (by rw [List.length_drop]; decide), encode_length, encode_length,
      List.length_take, List.length_drop]
    decide

/-- C3 (amended): each block's codeword has (block data length) + 33 symbols, so a
single-block input of at most 222 symbols yields len + 33 symbols — exactly 255 only
for a full 222-symbol block — while the 223-symbol message is split into two blocks
totaling 289 symbols. -/
theorem c3_amended :
    (∀ data : List Nat, data.length ≤ 222 →
      (RS.encodeMessage data).length = data.length + 33) ∧
    (RS.encodeMessage (List.replicate 222 0)).length = 255 ∧
    (RS.encodeMessage loremBytes).length =
      loremBytes.length + 66 := by
  refine ⟨fun data h => by rw [encodeMessage_of_le h, encode_length], ?_, ?_⟩
  · rw [encodeMessage_of_le (by decide), encode_length]
    decide
  · rw [encodeMessage_split (by decide), List.length_append,
      encodeMessage_of_le (by rw [List.length_drop]; decide), encode_length, encode_length,
      List.length_take, List.length_drop]
    decide

/-- Witness for C3 (amended), discharging its length hypothesis at the notebook's
10-symbol input. -/
theorem c3_amended_witness : (RS.encodeMessage msgBytes).length = msgBytes.length + 33 :=
  c3_amended.1 msgBytes (by decide)

/-- C4 counterexample: the notebook's 10-symbol input — length different from
k = 223 — is encoded successfully to the printed 43-byte codeword instead of raising
InvalidLengthError. -/
theorem c4_counterexample : msgBytes.length = 10 ∧ (10 : Nat) ≠ RS.k ∧
    RS.encodeMessage msgBytes = sentBytes := by
  refine ⟨rfl, by decide, ?_⟩
  rw [encodeMessage_of_le (by decide)]
  rfl

/-- C4 (amended): encode validates nothing and never raises — an input of at most
222 symbols is encoded as one block (the data, one length symbol, 32 parity symbols,
no padding), and a longer input is split into further such blocks; no
InvalidLengthError path exists. -/
theorem c4_amended : ∀ data : List Nat,
    (data.length ≤ 222 →
      RS.encodeMessage data =
        data ++ (data.length % 256) :: RS.parity (data ++ [data.length % 256])) ∧
    (222 < data.length →
      RS.encodeMessage data =
        RS.encode (data.take 222) ++ RS.encodeMessage (data.drop 222)) := by
  intro data
  refine ⟨fun h => ?_, fun h => encodeMessage_split h⟩
  rw [encodeMessage_of_le h, encode_unfold, List.append_assoc]
  rfl

/-- Witness for C4 (amended), discharging both hypotheses: the 10-symbol input as a
single block and the 223-symbol message as a split. -/
theorem c4_amended_witness :
    RS.encodeMessage msgBytes =
      msgBytes ++ (msgBytes.length % 256) :: RS.parity (msgBytes ++ [msgBytes.length % 256]) ∧
    RS.encodeMessage loremBytes =
      RS.encode (loremBytes.take 222) ++ RS.encodeMessage (loremBytes.drop 222) :=
  ⟨(c4_amended msgBytes).1 (by decide), (c4_amended loremBytes).2 (by decide)⟩

/-- C5 counterexample: the 10-symbol data is a verbatim codeword beginning, but what
follows it is not the remainder of the shifted data polynomial — a length symbol
comes first and the suffix has 33 symbols, not 32. -/
theorem c5_counterexample :
    (RS.encodeMessage msgBytes).take msgBytes.length = msgBytes ∧
    (RS.encodeMessage msgBytes).drop msgBytes.length ≠
      padTo 32 (polyDivMod (msgBytes ++ List.replicate 32 0) genTable).2 := by
  refine ⟨?_, ?_⟩
  · rw [encodeMessage_of_le (by decide)]
    exact encode_take msgBytes
  · rw [encodeMessage_of_le (by decide)]
    decide

/-- C5 (amended): systematic per block — a message of at most 222 symbols appears
verbatim at the start of its single-block codeword, followed by one length symbol
and the 32-symbol remainder of the shifted data-plus-length polynomial; a longer
message begins with only its first block's 222 data symbols, so the message as a
whole is not a codeword prefix. -/
theorem c5_amended : ∀ data : List Nat,
    (data.length ≤ 222 →
      (RS.encodeMessage data).take data.length = data ∧
      (RS.encodeMessage data).drop data.length = (data.length % 256) ::
        padTo 32 (polyDivMod ((data ++ [data.length % 256]) ++ List.replicate 32 0) genTable).2) ∧
    (222 < data.length →
      (RS.encodeMessage data).take 222 = data.take 222) := by
  intro data
  constructor
  · intro h
    rw [encodeMessage_of_le h]
    exact ⟨encode_take data, encode_drop data⟩
  · intro h
    rw [encodeMessage_split h]
    have hc1 : (data.take 222).length = 222 := by
      rw [List.length_take]
      omega
    rw [encode_unfold, List.append_assoc, List.append_assoc]
    rw [List.take_append_eq_append_take, hc1]
    simp

/-- Witness for C5 (amended), discharging both hypotheses at the notebook's two
anchored messages. -/
theorem c5_amended_witness :
    ((RS.encodeMessage msgBytes).take msgBytes.length = msgBytes ∧
      (RS.encodeMessage msgBytes).drop msgBytes.length = (msgBytes.length % 256) ::
        padTo 32 (polyDivMod ((msgBytes ++ [msgBytes.length % 256]) ++
          List.replicate 32 0) genTable).2) ∧
    (RS.encodeMessage loremBytes).take 222 = loremBytes.take 222 :=
  ⟨(c5_amended msgBytes).1 (by decide), (c5_amended loremBytes).2 (by decide)⟩

/-- C9 counterexample: the syndrome roots start at alpha^1, not alpha^0 — evaluating
the program's own uncorrupted codeword of the notebook message at alpha^0 = 1 gives
161, not 0. -/
theorem c9_counterexample :
    exp 0 = 1 ∧ poly_eval (RS.encodeMessage msgBytes) (exp 0) = 161 ∧ (161 : Nat) ≠ 0 := by
  refine ⟨rfl, ?_, by decide⟩
  rw [encodeMessage_of_le (by decide)]
  rfl

/-- C9 (amended): the syndromes are S_i = poly_eval(c, alpha^i) for i = 1..32 (the
generator's roots), not i = 0..31; every single-block codeword — data of at most 222
symbols, reaching the full 255-symbol block at 222 — has all 32 syndromes equal to
zero, and the decoder returns the data through the zero-syndrome fast path without
invoking the locator, root-search or magnitude stages. -/
theorem c9_amended : ∀ d : List Nat, d.length ≤ 222 → (∀ c ∈ d, c < 256) →
    RS.syndromes (RS.encodeMessage d) = List.replicate 32 0 ∧
    RS.decodeMessage (RS.encodeMessage d) = some d := by
  intro d hlen hd
  rw [encodeMessage_of_le hlen]
  refine ⟨syndromes_encode hd, ?_⟩
  rw [decodeMessage_of_le (by rw [encode_length]; omega)]
  exact decode_encode hd

/-- Witness for C9 (amended) at a full single block of 222 fives, whose codeword has
exactly 255 symbols. -/
theorem c9_amended_witness :
    RS.syndromes (RS.encodeMessage (List.replicate 222 5)) = List.replicate 32 0 ∧
    RS.decodeMessage (RS.encodeMessage (List.replicate 222 5)) =
      some (List.replicate 222 5) :=
  c9_amended (List.replicate 222 5) (by decide) (by decide)
